import Mathlib

/-!
Verification of the section-extraction and manifest-generation engine in
`src-tauri/split_engine.py`.

Text is modelled as `List Char`; a Python `str` literal `s` is written as
`(s : String).data`.  Python `str.split('\x27\n\x27)` and
`'\x27\n\x27.join` become `splitNl` and `joinNl`; `str.strip()` /
`str.lstrip()` remove exactly the characters Python `str.isspace()`
accepts.  `x in line` (substring containment) becomes
`List.isInfixOf`, and `str.startswith` becomes `List.isPrefixOf`.
-/

namespace SplitEngine

/-- The characters Python `str.isspace()` accepts and `str.strip()` /
`str.lstrip()` remove: the ASCII whitespace `\t`-`\r` and space, the
file/group/record/unit separators `\x1c`-`\x1f`, and the Unicode
whitespace characters. -/
def pyIsSpace (c : Char) : Bool :=
  c = ' ' || c = '\t' || c = '\n' || c = '\r' || c = '\x0b' || c = '\x0c'
    || c = '\x1c' || c = '\x1d' || c = '\x1e' || c = '\x1f'
    || c = '\x85' || c = '\xa0' || c = '\u1680'
    || ('\u2000' ≤ c && c ≤ '\u200a')
    || c = '\u2028' || c = '\u2029' || c = '\u202f' || c = '\u205f'
    || c = '\u3000'

/-- Python `str.lstrip()`. -/
def lstrip (s : List Char) : List Char := s.dropWhile pyIsSpace

/-- Python `str.rstrip()`. -/
def rstrip (s : List Char) : List Char := (s.reverse.dropWhile pyIsSpace).reverse

/-- Python `str.strip()`. -/
def strip (s : List Char) : List Char := rstrip (lstrip s)

/-- Python `content.split('\x27\n\x27)`: split on every newline, keeping
empty chunks; the empty string yields a single empty line. -/
def splitNl : List Char → List (List Char)
  | [] => [[]]
  | c :: cs =>
    if c = '\n' then [] :: splitNl cs
    else
      match splitNl cs with
      | [] => [[c]]
      | l :: ls => (c :: l) :: ls

/-- Python `'\x27\n\x27.join(lines)`. -/
def joinNl : List (List Char) → List Char
  | [] => []
  | [l] => l
  | l :: ls => l ++ '\n' :: joinNl ls

end SplitEngine

namespace SplitEngine

/-- The import-declaration token `'\x27use '\x27` checked by `extract_imports`. -/
def useTok : List Char := ("use " : String).data

/-- The line-comment token `'\x27//'\x27`. -/
def commentTok : List Char := ("//" : String).data

/-- `line.startswith('\x27use '\x27) or line.startswith('\x27//'\x27)`:
the line is appended to `imports`. -/
def includeLine (l : List Char) : Bool :=
  useTok.isPrefixOf l || commentTok.isPrefixOf l

/-- `line.strip() and not line.strip().startswith('\x27//'\x27)`: a
non-blank line that is not a comment after stripping stops the scan. -/
def breakLine (l : List Char) : Bool :=
  !(strip l).isEmpty && !(commentTok.isPrefixOf (strip l))

/-- The scan loop of `extract_imports` over the line list: include, break,
or silently skip each line in turn. -/
def scanImports : List (List Char) → List (List Char)
  | [] => []
  | l :: ls =>
    if includeLine l then l :: scanImports ls
    else if breakLine l then []
    else scanImports ls

/-- `extract_imports(content)`: extract all imports from the beginning of
the file. -/
def extract_imports (content : List Char) : List Char :=
  joinNl (scanImports (splitNl content))

/-- Python substring containment `sub in l`. -/
def containsSub (sub l : List Char) : Bool := decide (sub <:+: l)

/-- `start_idx`: index of the first line containing `start_marker` as a
substring, if any. -/
def find_start (lines : List (List Char)) (sm : List Char) : Option Nat :=
  lines.findIdx? (fun l => containsSub sm l)

/-- `end_idx`: index of the first line strictly after `si` containing
`end_marker` (the loop `for i in range(start_idx + 1, len(lines))`). -/
def find_end (lines : List (List Char)) (si : Nat) (em : List Char) : Option Nat :=
  ((lines.drop (si + 1)).findIdx? (fun l => containsSub em l)).map (fun k => k + (si + 1))

/-- `extract_section(content, start_marker, end_marker=None)`: extract a
section between markers. -/
def extract_section (content sm : List Char) (em : Option (List Char)) : List Char :=
  match find_start (splitNl content) sm with
  | none => []
  | some si =>
    match em with
    | none => joinNl ((splitNl content).drop si)
    | some e =>
      match find_end (splitNl content) si e with
      | none => joinNl ((splitNl content).drop si)
      | some ei => joinNl (((splitNl content).drop si).take (ei - si))

/-- The fixed `mod_content` manifest text rendered by `main` (braces and
apostrophes written as escapes). -/
def mod_content : String := "//! Transcoding engine split into modular components.\n//!\n//! - state: Engine state management, queue persistence, listeners\n//! - worker: Worker thread pool and job scheduling\n//! - ffmpeg_args: FFmpeg command-line argument generation\n//! - job_runner: Job execution logic, progress tracking\n//! - smart_scan: Smart Scan batch processing\n//! - tests: All test cases\n\nmod state;\nmod worker;\nmod ffmpeg_args;\nmod job_runner;\nmod smart_scan;\n\n#[cfg(test)]\nmod tests;\n\nuse std::collections::\x7bHashMap, HashSet, VecDeque, hash_map::DefaultHasher\x7d;\nuse std::fs;\nuse std::hash::\x7bHash, Hasher\x7d;\nuse std::path::\x7bPath, PathBuf\x7d;\nuse std::sync::atomic::\x7bAtomicU64, Ordering\x7d;\nuse std::sync::\x7bArc, Mutex\x7d;\nuse std::time::\x7bSystemTime, UNIX_EPOCH\x7d;\n\nuse anyhow::\x7bContext, Result\x7d;\n\nuse crate::ffui_core::domain::\x7b\n    AutoCompressProgress, AutoCompressResult, FFmpegPreset, JobSource, JobStatus, JobType,\n    MediaInfo, QueueState, SmartScanConfig, TranscodeJob,\n\x7d;\nuse crate::ffui_core::monitor::\x7bCpuUsageSnapshot, GpuUsageSnapshot, sample_cpu_usage, sample_gpu_usage\x7d;\nuse crate::ffui_core::settings::\x7bself, AppSettings, DownloadedToolInfo, DownloadedToolState\x7d;\nuse crate::ffui_core::tools::\x7bExternalToolKind, ExternalToolStatus, ensure_tool_available, last_tool_download_metadata, tool_status\x7d;\n\npub(crate) use state::\x7bInner, EngineState, restore_jobs_from_snapshot\x7d;\nuse state::\x7bsnapshot_queue_state, notify_queue_listeners, restore_jobs_from_persisted_queue\x7d;\n\n#[derive(Clone)]\npub struct TranscodingEngine \x7b\n    inner: Arc<Inner>,\n\x7d\n\nimpl TranscodingEngine \x7b\n    pub fn new() -> Result<Self> \x7b\n        let presets = settings::load_presets().unwrap_or_default();\n        let settings = settings::load_settings().unwrap_or_default();\n        let inner = Arc::new(Inner::new(presets, settings));\n        restore_jobs_from_persisted_queue(&inner);\n        worker::spawn_worker(inner.clone());\n        Ok(Self \x7b inner \x7d)\n    \x7d\n\n    fn next_job_id(&self) -> String \x7b\n        self.inner\n            .next_job_id\n            .fetch_add(1, Ordering::SeqCst)\n            .to_string()\n    \x7d\n\n    pub fn queue_state(&self) -> QueueState \x7b\n        snapshot_queue_state(&self.inner)\n    \x7d\n\n    pub fn register_queue_listener<F>(&self, listener: F)\n    where\n        F: Fn(QueueState) + Send + Sync + \x27static,\n    \x7b\n        let mut listeners = self\n            .inner\n            .queue_listeners\n            .lock()\n            .expect(\"queue listeners lock poisoned\");\n        listeners.push(Arc::new(listener));\n    \x7d\n\n    pub fn register_smart_scan_listener<F>(&self, listener: F)\n    where\n        F: Fn(AutoCompressProgress) + Send + Sync + \x27static,\n    \x7b\n        let mut listeners = self\n            .inner\n            .smart_scan_listeners\n            .lock()\n            .expect(\"smart scan listeners lock poisoned\");\n        listeners.push(Arc::new(listener));\n    \x7d\n\n    fn notify_listeners(&self) \x7b\n        notify_queue_listeners(&self.inner);\n    \x7d\n\n    pub fn presets(&self) -> Vec<FFmpegPreset> \x7b\n        let state = self.inner.state.lock().expect(\"engine state poisoned\");\n        state.presets.clone()\n    \x7d\n\n    pub fn save_preset(&self, preset: FFmpegPreset) -> Result<Vec<FFmpegPreset>> \x7b\n        let mut state = self.inner.state.lock().expect(\"engine state poisoned\");\n        if let Some(existing) = state.presets.iter_mut().find(|p| p.id == preset.id) \x7b\n            *existing = preset;\n        \x7d else \x7b\n            state.presets.push(preset);\n        \x7d\n        settings::save_presets(&state.presets)?;\n        Ok(state.presets.clone())\n    \x7d\n\n    pub fn delete_preset(&self, preset_id: &str) -> Result<Vec<FFmpegPreset>> \x7b\n        let mut state = self.inner.state.lock().expect(\"engine state poisoned\");\n        state.presets.retain(|p| p.id != preset_id);\n        settings::save_presets(&state.presets)?;\n        Ok(state.presets.clone())\n    \x7d\n\n    pub fn settings(&self) -> AppSettings \x7b\n        let state = self.inner.state.lock().expect(\"engine state poisoned\");\n        state.settings.clone()\n    \x7d\n\n    pub fn save_settings(&self, new_settings: AppSettings) -> Result<AppSettings> \x7b\n        let mut state = self.inner.state.lock().expect(\"engine state poisoned\");\n        state.settings = new_settings.clone();\n        settings::save_settings(&state.settings)?;\n        Ok(new_settings)\n    \x7d\n\n    fn record_tool_download(&self, kind: ExternalToolKind, binary_path: &str) \x7b\n        job_runner::record_tool_download_with_inner(&self.inner, kind, binary_path);\n    \x7d\n\n    // All other public methods forward to appropriate modules\n    pub fn enqueue_transcode_job(\n        &self,\n        filename: String,\n        job_type: JobType,\n        source: JobSource,\n        original_size_mb: f64,\n        original_codec: Option<String>,\n        preset_id: String,\n    ) -> TranscodeJob \x7b\n        worker::enqueue_transcode_job(\n            &self.inner,\n            filename,\n            job_type,\n            source,\n            original_size_mb,\n            original_codec,\n            preset_id,\n        )\n    \x7d\n\n    pub fn cancel_job(&self, job_id: &str) -> bool \x7b\n        worker::cancel_job(&self.inner, job_id)\n    \x7d\n\n    pub fn wait_job(&self, job_id: &str) -> bool \x7b\n        worker::wait_job(&self.inner, job_id)\n    \x7d\n\n    pub fn resume_job(&self, job_id: &str) -> bool \x7b\n        worker::resume_job(&self.inner, job_id)\n    \x7d\n\n    pub fn restart_job(&self, job_id: &str) -> bool \x7b\n        worker::restart_job(&self.inner, job_id)\n    \x7d\n\n    pub fn reorder_waiting_jobs(&self, ordered_ids: Vec<String>) -> bool \x7b\n        worker::reorder_waiting_jobs(&self.inner, ordered_ids)\n    \x7d\n\n    pub fn cpu_usage(&self) -> CpuUsageSnapshot \x7b\n        sample_cpu_usage()\n    \x7d\n\n    pub fn gpu_usage(&self) -> GpuUsageSnapshot \x7b\n        sample_gpu_usage()\n    \x7d\n\n    pub fn external_tool_statuses(&self) -> Vec<ExternalToolStatus> \x7b\n        let state = self.inner.state.lock().expect(\"engine state poisoned\");\n        let tools = &state.settings.tools;\n        vec![\n            tool_status(ExternalToolKind::Ffmpeg, tools),\n            tool_status(ExternalToolKind::Ffprobe, tools),\n            tool_status(ExternalToolKind::Avifenc, tools),\n        ]\n    \x7d\n\n    pub fn smart_scan_defaults(&self) -> SmartScanConfig \x7b\n        let state = self.inner.state.lock().expect(\"engine state poisoned\");\n        state.settings.smart_scan_defaults.clone()\n    \x7d\n\n    pub fn update_smart_scan_defaults(&self, config: SmartScanConfig) -> Result<SmartScanConfig> \x7b\n        let mut state = self.inner.state.lock().expect(\"engine state poisoned\");\n        state.settings.smart_scan_defaults = config.clone();\n        settings::save_settings(&state.settings)?;\n        Ok(config)\n    \x7d\n\n    pub fn run_auto_compress(\n        &self,\n        root_path: String,\n        config: SmartScanConfig,\n    ) -> Result<AutoCompressResult> \x7b\n        smart_scan::run_auto_compress(&self.inner, self.clone(), root_path, config)\n    \x7d\n\n    pub fn smart_scan_batch_summary(&self, batch_id: &str) -> Option<AutoCompressResult> \x7b\n        smart_scan::smart_scan_batch_summary(&self.inner, batch_id)\n    \x7d\n\n    pub fn inspect_media(&self, path: String) -> Result<String> \x7b\n        job_runner::inspect_media(&self.inner, path)\n    \x7d\n\x7d\n\nfn current_time_millis() -> u64 \x7b\n    SystemTime::now()\n        .duration_since(UNIX_EPOCH)\n        .unwrap_or_default()\n        .as_millis() as u64\n\x7d\n"

/-- The `common_imports` constant defined (and left unused) in `main`. -/
def common_imports : String := "use std::path::\x7bPath, PathBuf\x7d;\nuse anyhow::\x7bContext, Result\x7d;\nuse crate::ffui_core::domain::*;\nuse crate::ffui_core::settings::AppSettings;\nuse super::state::*;\n"

/-- The manifest text `main` writes to `engine/mod.rs`, as a function of
the source file content: `main` computes `worker_section` from the content
and then renders the fixed `mod_content` template. -/
def main_manifest (content : List Char) : List Char :=
  let _worker_section :=
    extract_section content ("fn spawn_worker" : String).data
      (some ("fn process_transcode_job" : String).data)
  mod_content.data

end SplitEngine

namespace SplitEngine

theorem joinNl_cons_cons (l x : List Char) (xs : List (List Char)) :
    joinNl (l :: x :: xs) = l ++ '\n' :: joinNl (x :: xs) := rfl

theorem joinNl_cons_head (c : Char) (x : List Char) (xs : List (List Char)) :
    joinNl ((c :: x) :: xs) = c :: joinNl (x :: xs) := by
  cases xs <;> rfl

theorem splitNl_ne_nil (s : List Char) : splitNl s ≠ [] := by
  induction s with
  | nil => simp [splitNl]
  | cons c cs ih =>
    unfold splitNl
    by_cases hc : c = '\n'
    · simp [hc]
    · rw [if_neg hc]
      cases h : splitNl cs <;> simp

theorem not_mem_of_mem_splitNl (s : List Char) : ∀ l ∈ splitNl s, '\n' ∉ l := by
  induction s with
  | nil =>
    intro l hl
    simp only [splitNl, List.mem_singleton] at hl
    subst hl; simp
  | cons c cs ih =>
    intro l hl
    unfold splitNl at hl
    by_cases hc : c = '\n'
    · rw [if_pos hc] at hl
      rcases List.mem_cons.mp hl with h | h
      · subst h; simp
      · exact ih l h
    · rw [if_neg hc] at hl
      cases h : splitNl cs with
      | nil => exact absurd h (splitNl_ne_nil cs)
      | cons x xs =>
        rw [h] at hl
        rcases List.mem_cons.mp hl with h2 | h2
        · subst h2
          intro hmem
          rcases List.mem_cons.mp hmem with h3 | h3
          · exact hc h3.symm
          · exact ih x (by rw [h]; exact List.mem_cons_self x xs) h3
        · exact ih l (by rw [h]; exact List.mem_cons_of_mem x h2)

theorem joinNl_splitNl (s : List Char) : joinNl (splitNl s) = s := by
  induction s with
  | nil => rfl
  | cons c cs ih =>
    unfold splitNl
    by_cases hc : c = '\n'
    · rw [if_pos hc]
      cases h : splitNl cs with
      | nil => exact absurd h (splitNl_ne_nil cs)
      | cons x xs =>
        rw [joinNl_cons_cons, List.nil_append, hc, ← h, ih]
    · rw [if_neg hc]
      cases h : splitNl cs with
      | nil => exact absurd h (splitNl_ne_nil cs)
      | cons x xs =>
        rw [joinNl_cons_head, ← h, ih]

theorem splitNl_of_no_newline (a : List Char) (h : '\n' ∉ a) : splitNl a = [a] := by
  induction a with
  | nil => rfl
  | cons c cs ih =>
    have hc : ¬ c = '\n' := fun e => h (by rw [e]; exact List.mem_cons_self _ _)
    unfold splitNl
    rw [if_neg hc, ih (fun hm => h (List.mem_cons_of_mem c hm))]

theorem splitNl_cons_of_ne (c : Char) (cs l : List Char) (ls : List (List Char))
    (hc : ¬ c = '\n') (h : splitNl cs = l :: ls) :
    splitNl (c :: cs) = (c :: l) :: ls := by
  unfold splitNl
  rw [if_neg hc, h]

theorem splitNl_append_newline (a t : List Char) (h : '\n' ∉ a) :
    splitNl (a ++ '\n' :: t) = a :: splitNl t := by
  induction a with
  | nil => simp [splitNl]
  | cons c cs ih =>
    have hc : ¬ c = '\n' := fun e => h (by rw [e]; exact List.mem_cons_self _ _)
    show splitNl (c :: (cs ++ '\n' :: t)) = (c :: cs) :: splitNl t
    exact splitNl_cons_of_ne c _ cs (splitNl t) hc
      (ih (fun hm => h (List.mem_cons_of_mem c hm)))

theorem splitNl_joinNl (L : List (List Char)) (hne : L ≠ [])
    (h : ∀ l ∈ L, '\n' ∉ l) : splitNl (joinNl L) = L := by
  induction L with
  | nil => exact absurd rfl hne
  | cons a L ih =>
    cases L with
    | nil => exact splitNl_of_no_newline a (h a (List.mem_cons_self a []))
    | cons b M =>
      rw [joinNl_cons_cons,
        splitNl_append_newline a _ (h a (List.mem_cons_self a (b :: M))),
        ih (by simp) (fun l hl => h l (List.mem_cons_of_mem a hl))]

end SplitEngine

namespace SplitEngine

theorem mem_of_mem_scanImports (L : List (List Char)) :
    ∀ l ∈ scanImports L, l ∈ L := by
  induction L with
  | nil => intro l hl; simp [scanImports] at hl
  | cons a L ih =>
    intro l hl
    unfold scanImports at hl
    by_cases hi : includeLine a
    · rw [if_pos hi] at hl
      rcases List.mem_cons.mp hl with h | h
      · exact h ▸ List.mem_cons_self _ _
      · exact List.mem_cons_of_mem a (ih l h)
    · rw [if_neg hi] at hl
      by_cases hb : breakLine a
      · rw [if_pos hb] at hl; simp at hl
      · rw [if_neg hb] at hl
        exact List.mem_cons_of_mem a (ih l hl)

theorem includeLine_of_mem_scanImports (L : List (List Char)) :
    ∀ l ∈ scanImports L, includeLine l = true := by
  induction L with
  | nil => intro l hl; simp [scanImports] at hl
  | cons a L ih =>
    intro l hl
    unfold scanImports at hl
    by_cases hi : includeLine a
    · rw [if_pos hi] at hl
      rcases List.mem_cons.mp hl with h | h
      · exact h ▸ hi
      · exact ih l h
    · rw [if_neg hi] at hl
      by_cases hb : breakLine a
      · rw [if_pos hb] at hl; simp at hl
      · rw [if_neg hb] at hl
        exact ih l hl

theorem scanImports_of_all_include (L : List (List Char))
    (h : ∀ l ∈ L, includeLine l = true) : scanImports L = L := by
  induction L with
  | nil => rfl
  | cons a L ih =>
    unfold scanImports
    rw [if_pos (h a (List.mem_cons_self a L)),
      ih (fun l hl => h l (List.mem_cons_of_mem a hl))]

theorem joinNl_cons_ne_nil (l : List Char) (ls : List (List Char))
    (hl : l ≠ []) : joinNl (l :: ls) ≠ [] := by
  cases ls with
  | nil => exact hl
  | cons x xs =>
    rw [joinNl_cons_cons]
    simp

theorem ne_nil_of_containsSub (sm l : List Char)
    (h : containsSub sm l = true) (hsm : sm ≠ []) : l ≠ [] := by
  intro hl
  subst hl
  have hinf : sm <:+: [] := of_decide_eq_true h
  exact hsm (List.infix_nil.mp hinf)

theorem findIdx?_eq_some_of_first {α : Type} (p : α → Bool) (L : List α) (i : Nat)
    (h1 : i < L.length) (h2 : p (L.get ⟨i, h1⟩) = true)
    (h3 : ∀ x ∈ L.take i, p x = false) :
    L.findIdx? p = some i := by
  rw [List.findIdx?_eq_some_iff_getElem]
  refine ⟨h1, by simpa using h2, ?_⟩
  intro j hj
  have hjl : j < (L.take i).length := by
    rw [List.length_take]
    exact lt_min hj (Nat.lt_trans hj h1)
  have hmem : L.get ⟨j, Nat.lt_trans hj h1⟩ ∈ L.take i := by
    have hg : (L.take i).get ⟨j, hjl⟩ = L.get ⟨j, Nat.lt_trans hj h1⟩ := by
      simp [List.getElem_take]
    rw [← hg]
    exact List.get_mem _ _ _
  have hpf := h3 _ hmem
  simp only [List.get_eq_getElem] at hpf
  simp [hpf]

end SplitEngine

namespace SplitEngine

theorem find_end_eq_some (lines : List (List Char)) (si ei : Nat) (em : List Char)
    (h4 : ei < lines.length) (h5 : si < ei)
    (h6 : containsSub em (lines.get ⟨ei, h4⟩) = true)
    (h7 : ∀ l ∈ (lines.take ei).drop (si + 1), containsSub em l = false) :
    find_end lines si em = some ei := by
  have hlen : ei - (si + 1) < (lines.drop (si + 1)).length := by
    rw [List.length_drop]; omega
  have hget : (lines.drop (si + 1)).get ⟨ei - (si + 1), hlen⟩ = lines.get ⟨ei, h4⟩ := by
    simp only [List.get_eq_getElem, List.getElem_drop]
    congr 1
    omega
  have h7' : ∀ l ∈ (lines.drop (si + 1)).take (ei - (si + 1)),
      containsSub em l = false := by
    intro l hl
    apply h7
    rw [List.drop_take]
    exact hl
  have hidx : (lines.drop (si + 1)).findIdx? (fun l => containsSub em l)
      = some (ei - (si + 1)) :=
    findIdx?_eq_some_of_first _ _ _ hlen (by rw [hget]; exact h6) h7'
  unfold find_end
  rw [hidx]
  simp only [Option.map_some']
  congr 1
  omega

theorem find_end_eq_none (lines : List (List Char)) (si : Nat) (em : List Char)
    (h : ∀ l ∈ lines.drop (si + 1), containsSub em l = false) :
    find_end lines si em = none := by
  unfold find_end
  rw [List.findIdx?_eq_none_iff.mpr h]
  rfl

/-- C4: when `si` is the index of the first line containing the start
marker and no end marker is given, `extract_section` returns every line
from `si` to the end of the document, joined with newlines. -/
theorem extract_section_no_end_marker (content sm : List Char) (si : Nat)
    (h1 : si < (splitNl content).length)
    (h2 : containsSub sm ((splitNl content).get ⟨si, h1⟩) = true)
    (h3 : ∀ l ∈ (splitNl content).take si, containsSub sm l = false) :
    extract_section content sm none = joinNl ((splitNl content).drop si) := by
  have hfs : find_start (splitNl content) sm = some si :=
    findIdx?_eq_some_of_first _ _ si h1 h2 h3
  unfold extract_section
  rw [hfs]

/-- C4 witness: the spec's example, evaluated concretely. -/
theorem extract_section_no_end_marker_witness :
    extract_section ("fn a()\nbody\nfn b()" : String).data ("fn a" : String).data none
      = ("fn a()\nbody\nfn b()" : String).data :=
  (extract_section_no_end_marker _ _ 0 (by decide) (by decide) (by decide)).trans
    (by decide)

theorem extract_section_some_start (content sm em : List Char) (si : Nat)
    (hfs : find_start (splitNl content) sm = some si) :
    extract_section content sm (some em)
      = (match find_end (splitNl content) si em with
        | none => joinNl ((splitNl content).drop si)
        | some ei => joinNl (((splitNl content).drop si).take (ei - si))) := by
  unfold extract_section
  rw [hfs]

/-- C2: with both markers, `si` the index of the first line containing the
start marker, and `ei` the index of the first line strictly after `si`
containing the end marker, `extract_section` returns exactly the lines of
the half-open range `[si, ei)` joined with newlines; the start line itself
is never consulted for the end marker. -/
theorem extract_section_half_open_range (content sm em : List Char) (si ei : Nat)
    (h1 : si < (splitNl content).length)
    (h2 : containsSub sm ((splitNl content).get ⟨si, h1⟩) = true)
    (h3 : ∀ l ∈ (splitNl content).take si, containsSub sm l = false)
    (h4 : ei < (splitNl content).length)
    (h5 : si < ei)
    (h6 : containsSub em ((splitNl content).get ⟨ei, h4⟩) = true)
    (h7 : ∀ l ∈ ((splitNl content).take ei).drop (si + 1), containsSub em l = false) :
    extract_section content sm (some em)
      = joinNl (((splitNl content).drop si).take (ei - si)) := by
  have hfs : find_start (splitNl content) sm = some si :=
    findIdx?_eq_some_of_first _ _ si h1 h2 h3
  rw [extract_section_some_start content sm em si hfs,
    find_end_eq_some _ si ei em h4 h5 h6 h7]

/-- C2 witness: the spec's example, evaluated concretely. -/
theorem extract_section_half_open_range_witness :
    extract_section ("x\nSTART\nmid\nEND\ny" : String).data ("START" : String).data
      (some ("END" : String).data) = ("START\nmid" : String).data :=
  (extract_section_half_open_range _ _ _ 1 3 (by decide) (by decide) (by decide)
    (by decide) (by decide) (by decide) (by decide)).trans (by decide)

/-- C3: when the start marker is found at first index `si` but no line
after `si` contains the end marker, `extract_section` returns the same
result as with no end marker at all. -/
theorem extract_section_missing_end_fallback (content sm em : List Char) (si : Nat)
    (h1 : si < (splitNl content).length)
    (h2 : containsSub sm ((splitNl content).get ⟨si, h1⟩) = true)
    (h3 : ∀ l ∈ (splitNl content).take si, containsSub sm l = false)
    (h4 : ∀ l ∈ (splitNl content).drop (si + 1), containsSub em l = false) :
    extract_section content sm (some em) = extract_section content sm none := by
  have hfs : find_start (splitNl content) sm = some si :=
    findIdx?_eq_some_of_first _ _ si h1 h2 h3
  rw [extract_section_some_start content sm em si hfs,
    find_end_eq_none _ si em h4]
  unfold extract_section
  rw [hfs]

/-- C3 witness: the spec's example with the absent end marker `NOPE`. -/
theorem extract_section_missing_end_fallback_witness :
    extract_section ("x\nSTART\nmid\nEND\ny" : String).data ("START" : String).data
      (some ("NOPE" : String).data)
      = extract_section ("x\nSTART\nmid\nEND\ny" : String).data
          ("START" : String).data none :=
  extract_section_missing_end_fallback _ _ _ 1 (by decide) (by decide) (by decide)
    (by decide)

end SplitEngine

namespace SplitEngine

theorem extract_section_none_of_found (content sm : List Char) (si : Nat)
    (hfs : find_start (splitNl content) sm = some si) :
    extract_section content sm none = joinNl ((splitNl content).drop si) := by
  unfold extract_section
  rw [hfs]

theorem extract_section_ne_nil_of_found (content sm : List Char)
    (em : Option (List Char)) (si : Nat)
    (hfs : find_start (splitNl content) sm = some si) (hsm : sm ≠ []) :
    extract_section content sm em ≠ [] := by
  obtain ⟨h1, hp, -⟩ := List.findIdx?_eq_some_iff_getElem.mp hfs
  have hne : (splitNl content).get ⟨si, h1⟩ ≠ [] :=
    ne_nil_of_containsSub sm _ (by simpa using hp) hsm
  have hdrop : (splitNl content).drop si
      = (splitNl content).get ⟨si, h1⟩ :: (splitNl content).drop (si + 1) := by
    rw [List.get_eq_getElem]
    exact List.drop_eq_getElem_cons h1
  cases em with
  | none =>
    rw [extract_section_none_of_found content sm si hfs, hdrop]
    exact joinNl_cons_ne_nil _ _ hne
  | some e =>
    rw [extract_section_some_start content sm e si hfs]
    cases hfe : find_end (splitNl content) si e with
    | none =>
      show joinNl ((splitNl content).drop si) ≠ []
      rw [hdrop]
      exact joinNl_cons_ne_nil _ _ hne
    | some ei =>
      show joinNl (((splitNl content).drop si).take (ei - si)) ≠ []
      obtain ⟨k, -, hke⟩ := Option.map_eq_some'.mp hfe
      have hei : ei - si = k + 1 := by omega
      rw [hdrop, hei, List.take_succ_cons]
      exact joinNl_cons_ne_nil _ _ hne

/-- C1 counterexample: with the empty start marker on the empty document,
a line (the single empty line) contains the marker as a substring, yet
`extract_section` still returns the empty string. -/
theorem extract_section_empty_despite_found :
    (∃ l ∈ splitNl ([] : List Char), containsSub ([] : List Char) l = true)
      ∧ extract_section ([] : List Char) ([] : List Char) none = [] := by
  decide

/-- C1 (amended): for every list of lines and every NONEMPTY start marker,
`extract_section` returns the empty string iff no line of the input
contains the start marker as a substring. -/
theorem extract_section_empty_iff_not_found (content sm : List Char)
    (em : Option (List Char)) (hsm : sm ≠ []) :
    extract_section content sm em = []
      ↔ ∀ l ∈ splitNl content, containsSub sm l = false := by
  constructor
  · intro hempty
    cases hfs : find_start (splitNl content) sm with
    | none => simpa using List.findIdx?_eq_none_iff.mp hfs
    | some si =>
      exact absurd hempty (extract_section_ne_nil_of_found content sm em si hfs hsm)
  · intro hall
    unfold extract_section
    rw [show find_start (splitNl content) sm = none from
      List.findIdx?_eq_none_iff.mpr (by simpa using hall)]

/-- C1 witness: the spec's example, lines `a`, `b` with absent marker
`zzz`. -/
theorem extract_section_empty_iff_not_found_witness :
    (("zzz" : String).data ≠ [])
      ∧ (extract_section ("a\nb" : String).data ("zzz" : String).data none = []
          ↔ ∀ l ∈ splitNl ("a\nb" : String).data,
              containsSub ("zzz" : String).data l = false) :=
  ⟨by decide, extract_section_empty_iff_not_found _ _ none (by decide)⟩

end SplitEngine

namespace SplitEngine

/-- C7: the header harvester is idempotent: harvesting the text it
previously returned yields that same text unchanged. -/
theorem extract_imports_idempotent (content : List Char) :
    extract_imports (extract_imports content) = extract_imports content := by
  unfold extract_imports
  cases h : scanImports (splitNl content) with
  | nil => decide
  | cons x xs =>
    have hinc : ∀ l ∈ x :: xs, includeLine l = true := by
      rw [← h]; exact includeLine_of_mem_scanImports _
    have hnl : ∀ l ∈ x :: xs, '\n' ∉ l := by
      rw [← h]
      intro l hl
      exact not_mem_of_mem_splitNl content l (mem_of_mem_scanImports _ l hl)
    rw [splitNl_joinNl (x :: xs) (by simp) hnl, scanImports_of_all_include _ hinc]

/-- C8: the line indexing round-trips: joining the split lines with the
separator reproduces the text exactly, and the empty string splits into a
single empty line. -/
theorem splitNl_round_trip (text : List Char) :
    joinNl (splitNl text) = text ∧ splitNl ([] : List Char) = [[]] :=
  ⟨joinNl_splitNl text, rfl⟩

/-- C9: the manifest text written by `main` is deterministic and
independent of the source file content: any two source texts produce a
byte-identical manifest. -/
theorem main_manifest_independent (c1 c2 : List Char) :
    main_manifest c1 = main_manifest c2 := rfl

/-- A line at which the scan loop of `extract_imports` stops: it is not
included and satisfies the `elif` break condition. -/
def terminatesScan (l : List Char) : Bool := !includeLine l && breakLine l

/-- Following the spec's words (for comparison with the code's scan): a
terminating line in the spec's sense is non-blank, not a comment, and not
an import declaration, the last two read after left-trimming. -/
def specTerminates (l : List Char) : Bool :=
  !(strip l).isEmpty && !(commentTok.isPrefixOf (lstrip l))
    && !(useTok.isPrefixOf (lstrip l))

/-- C5 counterexample: in `use a;` / blank / `use b;` no line terminates
the header scan — neither under the code's break condition nor under the
spec's description — yet `extract_imports` drops the blank line and so
does not return the document unchanged. -/
theorem extract_imports_not_whole_document :
    (∀ l ∈ splitNl ("use a;\n\nuse b;" : String).data, terminatesScan l = false)
      ∧ (∀ l ∈ splitNl ("use a;\n\nuse b;" : String).data, specTerminates l = false)
      ∧ extract_imports ("use a;\n\nuse b;" : String).data
          ≠ ("use a;\n\nuse b;" : String).data := by
  decide

/-- C5 (amended): if every line of the document is included by the scan
(begins with `use ` or `//` at column 0) — in particular no line
terminates the scan — then `extract_imports` returns the entire document
unchanged. -/
theorem extract_imports_whole_document (content : List Char)
    (h : ∀ l ∈ splitNl content, includeLine l = true) :
    extract_imports content = content := by
  unfold extract_imports
  rw [scanImports_of_all_include _ h, joinNl_splitNl]

/-- C5 witness: a document made only of comment and import lines is
returned unchanged. -/
theorem extract_imports_whole_document_witness :
    (∀ l ∈ splitNl ("// header\nuse a;" : String).data, includeLine l = true)
      ∧ extract_imports ("// header\nuse a;" : String).data
          = ("// header\nuse a;" : String).data :=
  ⟨by decide, extract_imports_whole_document _ (by decide)⟩

end SplitEngine

namespace SplitEngine

/-- C6 counterexample: in `  use a;` / `use b;` the first line begins with
`use ` after left-trimming and no line terminates the scan in the spec's
sense, yet that line is not included in the harvested header — the code's
prefix check does not left-trim, and the indented import in fact stops the
scan, so the harvest is empty. -/
theorem extract_imports_indented_use_not_included :
    (useTok.isPrefixOf (lstrip (("  use a;" : String).data)) = true)
      ∧ (∀ l ∈ splitNl ("  use a;\nuse b;" : String).data, specTerminates l = false)
      ∧ (("  use a;" : String).data
          ∉ scanImports (splitNl ("  use a;\nuse b;" : String).data))
      ∧ extract_imports ("  use a;\nuse b;" : String).data = [] := by
  decide

theorem mem_scanImports_of_include (L : List (List Char)) (i : Nat)
    (h1 : i < L.length)
    (h2 : includeLine (L.get ⟨i, h1⟩) = true)
    (h3 : ∀ l ∈ L.take i, terminatesScan l = false) :
    L.get ⟨i, h1⟩ ∈ scanImports L := by
  induction L generalizing i with
  | nil => exact absurd h1 (by simp)
  | cons a L ih =>
    cases i with
    | zero =>
      have h2a : includeLine a = true := h2
      unfold scanImports
      rw [if_pos h2a]
      exact List.mem_cons_self _ _
    | succ i =>
      have h1' : i < L.length := by simpa using h1
      have h2' : includeLine (L.get ⟨i, h1'⟩) = true := by simpa using h2
      have h3' : ∀ l ∈ L.take i, terminatesScan l = false := by
        intro l hl
        exact h3 l (by rw [List.take_succ_cons]; exact List.mem_cons_of_mem a hl)
      have ha : terminatesScan a = false :=
        h3 a (by rw [List.take_succ_cons]; exact List.mem_cons_self _ _)
      show L.get ⟨i, h1'⟩ ∈ scanImports (a :: L)
      unfold scanImports
      by_cases hia : includeLine a = true
      · rw [if_pos hia]
        exact List.mem_cons_of_mem a (ih i h1' h2' h3')
      · have hiaf : includeLine a = false := by simpa using hia
        have hb : breakLine a = false := by
          simpa [terminatesScan, hiaf] using ha
        rw [if_neg hia, if_neg (by simp [hb])]
        exact ih i h1' h2' h3'

/-- C6 (amended): every line that begins with `use ` at column 0 — the
code performs no left-trimming before the prefix check, and a line whose
`use ` follows leading whitespace instead stops the scan — and that occurs
before the first line at which the scan stops is included in the harvested
header. -/
theorem extract_imports_includes_use_lines (content : List Char) (i : Nat)
    (h1 : i < (splitNl content).length)
    (h2 : useTok.isPrefixOf ((splitNl content).get ⟨i, h1⟩) = true)
    (h3 : ∀ l ∈ (splitNl content).take i, terminatesScan l = false) :
    (splitNl content).get ⟨i, h1⟩ ∈ scanImports (splitNl content) :=
  mem_scanImports_of_include _ i h1 (by unfold includeLine; rw [h2, Bool.true_or]) h3

/-- C6 witness: the `use a;` line after a comment header line is
harvested. -/
theorem extract_imports_includes_use_lines_witness :
    useTok.isPrefixOf ((splitNl ("// h\nuse a;\nfn x" : String).data).get
        ⟨1, by decide⟩) = true
      ∧ (splitNl ("// h\nuse a;\nfn x" : String).data).get ⟨1, by decide⟩
          ∈ scanImports (splitNl ("// h\nuse a;\nfn x" : String).data) :=
  ⟨by decide,
    extract_imports_includes_use_lines _ 1 (by decide) (by decide) (by decide)⟩

end SplitEngine

namespace SplitEngine

theorem ne_of_pyIsSpace (c d : Char) (hc : pyIsSpace c = true)
    (hd : pyIsSpace d = false) : d ≠ c := by
  intro e
  rw [← e] at hc
  rw [hc] at hd
  exact Bool.noConfusion hd

theorem includeLine_false_of_space_head (c : Char) (t : List Char)
    (hc : pyIsSpace c = true) : includeLine (c :: t) = false := by
  have h1 : useTok.isPrefixOf (c :: t) = false := by
    show (('u' == c) && List.isPrefixOf ('s' :: 'e' :: ' ' :: []) t) = false
    rw [beq_eq_false_iff_ne.mpr (ne_of_pyIsSpace c 'u' hc (by decide))]
    rfl
  have h2 : commentTok.isPrefixOf (c :: t) = false := by
    show (('/' == c) && List.isPrefixOf ('/' :: []) t) = false
    rw [beq_eq_false_iff_ne.mpr (ne_of_pyIsSpace c '/' hc (by decide))]
    rfl
  unfold includeLine
  rw [h1, h2]
  rfl

theorem rstrip_cons_of_not_space (c : Char) (t : List Char)
    (hc : pyIsSpace c = false) : rstrip (c :: t) = c :: rstrip t := by
  unfold rstrip
  rw [List.reverse_cons, List.dropWhile_append]
  by_cases he : (t.reverse.dropWhile pyIsSpace).isEmpty = true
  · rw [if_pos he]
    have h0 : t.reverse.dropWhile pyIsSpace = [] := List.isEmpty_iff.mp he
    rw [h0]
    simp [List.dropWhile_cons, hc]
  · rw [if_neg he]
    simp

theorem head_space_of_ne_lstrip (l : List Char) (h : l ≠ lstrip l) :
    ∃ c t, l = c :: t ∧ pyIsSpace c = true := by
  cases l with
  | nil => exact absurd rfl h
  | cons c t =>
    by_cases hc : pyIsSpace c = true
    · exact ⟨c, t, rfl, hc⟩
    · exfalso
      apply h
      unfold lstrip
      rw [List.dropWhile_cons, if_neg hc]

theorem includeLine_false_of_blank (l : List Char)
    (h : ∀ c ∈ l, pyIsSpace c = true) : includeLine l = false := by
  cases l with
  | nil => rfl
  | cons c t => exact includeLine_false_of_space_head c t (h c (List.mem_cons_self _ _))

theorem breakLine_false_of_blank (l : List Char)
    (h : ∀ c ∈ l, pyIsSpace c = true) : breakLine l = false := by
  have hl : lstrip l = [] := by
    unfold lstrip
    rw [List.dropWhile_eq_nil_iff]
    exact h
  have hs : strip l = [] := by rw [strip, hl]; rfl
  simp [breakLine, hs]

theorem comment_prefix_rstrip (s : List Char)
    (h : commentTok.isPrefixOf s = true) :
    commentTok.isPrefixOf (rstrip s) = true := by
  have hp : commentTok <+: s := by simpa using h
  obtain ⟨u, hu⟩ := hp
  rw [← hu, show commentTok ++ u = '/' :: '/' :: u from rfl,
    rstrip_cons_of_not_space _ _ (by decide),
    rstrip_cons_of_not_space _ _ (by decide)]
  simp only [ List.isPrefixOf_iff_prefix]
  exact ⟨rstrip u, rfl⟩

theorem includeLine_false_of_ne_lstrip (l : List Char) (h : l ≠ lstrip l) :
    includeLine l = false := by
  obtain ⟨c, t, rfl, hc⟩ := head_space_of_ne_lstrip l h
  exact includeLine_false_of_space_head c t hc

theorem breakLine_false_of_indented_comment (l : List Char)
    (h2 : commentTok.isPrefixOf (lstrip l) = true) : breakLine l = false := by
  have hc := comment_prefix_rstrip (lstrip l) h2
  simp [breakLine, strip, hc]

theorem breakLine_true_of_indented_use (l : List Char)
    (h2 : useTok.isPrefixOf (lstrip l) = true) : breakLine l = true := by
  have hp : useTok <+: lstrip l := by simpa using h2
  obtain ⟨u, hu⟩ := hp
  have hls : lstrip l = 'u' :: 's' :: 'e' :: ' ' :: u := by rw [← hu]; rfl
  have hstrip : strip l = 'u' :: rstrip ('s' :: 'e' :: ' ' :: u) := by
    rw [strip, hls, rstrip_cons_of_not_space _ _ (by decide)]
  unfold breakLine
  rw [hstrip]
  rfl

/-- C10 counterexample: the indented import line `  use a;` is not
silently skipped — it terminates the scan: skipping it would harvest the
following column-0 line `use b;`, but the actual harvest is empty. -/
theorem extract_imports_indented_use_terminates :
    (("  use a;" : String).data ≠ lstrip (("  use a;" : String).data))
      ∧ useTok.isPrefixOf (lstrip (("  use a;" : String).data)) = true
      ∧ scanImports (splitNl ("  use a;\nuse b;" : String).data) = []
      ∧ scanImports ((splitNl ("  use a;\nuse b;" : String).data).drop 1)
          = [("use b;" : String).data] := by
  decide

/-- C10 (amended): every line of the harvested header starts with `use `
or `//` at column 0; lines that are entirely whitespace, and comment
lines preceded by leading whitespace, are silently skipped — neither
included nor scan-stopping — so the header can be a non-contiguous
subsequence of the document's lines; but an import line preceded by
leading whitespace terminates the scan. -/
theorem extract_imports_shape (content : List Char) (l : List Char)
    (ls : List (List Char)) :
    (∀ x ∈ scanImports (splitNl content),
        useTok.isPrefixOf x = true ∨ commentTok.isPrefixOf x = true)
      ∧ ((∀ c ∈ l, pyIsSpace c = true) → scanImports (l :: ls) = scanImports ls)
      ∧ (l ≠ lstrip l → commentTok.isPrefixOf (lstrip l) = true →
          scanImports (l :: ls) = scanImports ls)
      ∧ (l ≠ lstrip l → useTok.isPrefixOf (lstrip l) = true →
          scanImports (l :: ls) = []) := by
  refine ⟨?_, ?_, ?_, ?_⟩
  · intro x hx
    have hin := includeLine_of_mem_scanImports _ x hx
    simp only [includeLine, Bool.or_eq_true] at hin
    exact hin
  · intro hblank
    conv_lhs => unfold scanImports
    rw [if_neg (by simp [includeLine_false_of_blank l hblank]),
      if_neg (by simp [breakLine_false_of_blank l hblank])]
  · intro hne hcmt
    conv_lhs => unfold scanImports
    rw [if_neg (by simp [includeLine_false_of_ne_lstrip l hne]),
      if_neg (by simp [breakLine_false_of_indented_comment l hcmt])]
  · intro hne huse
    conv_lhs => unfold scanImports
    rw [if_neg (by simp [includeLine_false_of_ne_lstrip l hne]),
      if_pos (breakLine_true_of_indented_use l huse)]

/-- C10 witness: an indented `use` line alone terminates the scan. -/
theorem extract_imports_shape_witness :
    (("  use x;" : String).data ≠ lstrip (("  use x;" : String).data))
      ∧ useTok.isPrefixOf (lstrip (("  use x;" : String).data)) = true
      ∧ scanImports [("  use x;" : String).data] = [] :=
  ⟨by decide, by decide,
    (extract_imports_shape [] (("  use x;" : String).data) []).2.2.2
      (by decide) (by decide)⟩

end SplitEngine
